import Mathlib

/-!
# Verification of the `fletcher-simd` checksum core

This development embeds the checksum core of the `fletcher-simd` crate
(`src/lib.rs`) into Lean and proves / refutes the specification's claims
about it.

Modelling conventions:
* A machine integer of the block type (u8/u16/u32/u64, i.e. `blockBits = w`)
  is a `Nat` together with explicit reduction `% 2 ^ w`; every wrapping
  operation of the source reduces explicitly.
* A SIMD vector of `LANES` lanes is a `List Nat` of length `LANES`;
  element-wise vector operations are `List.zipWith` of the wrapping scalar
  operations, and `reduce_sum` (which wraps lane by lane) is the list sum
  followed by one reduction, which is equal to the chained wrapping sum.
* A Rust iterator, consumed in a single pass, is embedded as the list of the
  elements it yields.
* The fallible conversions `BlockType::try_from(usize)` are embedded as an
  `Option`-returning function; `update_fletcher_simd_checked` models the
  function with its possible `unwrap` panics as `Option`, while
  `update_fletcher_simd` is the same computation with the conversions
  evaluated (they are proved to succeed under the instantiation bounds).
-/

namespace FletcherSimd

/-- Wrapping addition of two `w`-bit block values (`wrapping_add`). -/
def wadd (w x y : Nat) : Nat := (x + y) % 2 ^ w

/-- Wrapping multiplication of two `w`-bit block values (`wrapping_mul`). -/
def wmul (w x y : Nat) : Nat := (x * y) % 2 ^ w

/-- Wrapping subtraction of two `w`-bit block values (`wrapping_sub`). -/
def wsub (w x y : Nat) : Nat := (x % 2 ^ w + (2 ^ w - y % 2 ^ w)) % 2 ^ w

/-- Element-wise SIMD addition of two lane vectors. -/
def vwadd (w : Nat) (u v : List Nat) : List Nat := List.zipWith (wadd w) u v

/-- Element-wise SIMD multiplication of two lane vectors. -/
def vwmul (w : Nat) (u v : List Nat) : List Nat := List.zipWith (wmul w) u v

/-- Lane reduction `reduce_sum` of the SIMD interface: the wrapping sum of
all lanes (`horizontal_sum` in `FletcherSimdVec`). -/
def horizontal_sum (w : Nat) (v : List Nat) : Nat := v.sum % 2 ^ w

/-- Source constant `MAX_VEC_SIZE = 256 / 8`: vector size in bytes. -/
def MAX_VEC_SIZE : Nat := 256 / 8

/-- Embeds `BlockType::try_from(n : usize)` for the `w`-bit block type:
succeeds exactly when `n` fits. -/
def blockTryFrom (w n : Nat) : Option Nat :=
  if n < 2 ^ w then some n else none

/-- One iteration of the lane-accumulation loop of `update_fletcher_simd`:
`a_accum = a_accum + elem; b_accum = b_accum + a_accum` element-wise. -/
def simdStep (w : Nat) (p : List Nat × List Nat) (g : List Nat) :
    List Nat × List Nat :=
  let aA := vwadd w p.1 g
  (aA, vwadd w p.2 aA)

/-- The lane-accumulation loop of `update_fletcher_simd`: starting from
zeroed `a_accum`/`b_accum`, each incoming lane-group `g` performs
`a_accum += g; b_accum += a_accum` element-wise. -/
def simdAccumLoop (w L : Nat) (groups : List (List Nat)) :
    List Nat × List Nat :=
  groups.foldl (simdStep w) (List.replicate L 0, List.replicate L 0)

/-- Embeds `update_fletcher_simd` (src/lib.rs, lines 250-297) with the two
`BlockType::try_from(...).unwrap()` sites modelled as `Option`: `none`
means the source would panic. -/
def update_fletcher_simd_checked (w L a b : Nat) (groups : List (List Nat)) :
    Option (Nat × Nat) :=
  let acc := simdAccumLoop w L groups
  let a1 := wadd w a (horizontal_sum w acc.1)
  match blockTryFrom w L with
  | none => none
  | some lanes =>
    let b1 := wadd w b (wmul w lanes (horizontal_sum w acc.2))
    match (List.range L).mapM (blockTryFrom w) with
    | none => none
    | some increasing_mask =>
      let sub_a := vwmul w acc.1 increasing_mask
      some (a1, wsub w b1 (horizontal_sum w sub_a))

/-- Embeds `update_fletcher_simd` with the `try_from` conversions evaluated:
`try_from(LANES)` yields `LANES` and the increasing mask is
`[0, 1, ..., LANES-1]` (equal to the checked variant whenever
`LANES < 2 ^ w`, which holds for all four instantiations). -/
def update_fletcher_simd (w L a b : Nat) (groups : List (List Nat)) :
    Nat × Nat :=
  let acc := simdAccumLoop w L groups
  let a1 := wadd w a (horizontal_sum w acc.1)
  let b1 := wadd w b (wmul w L (horizontal_sum w acc.2))
  let increasing_mask := List.range L
  let sub_a := vwmul w acc.1 increasing_mask
  (a1, wsub w b1 (horizontal_sum w sub_a))

/-- Embeds `update_fletcher_scalar` (src/lib.rs, lines 300-315): for each
element `a = a.wrapping_add(elem); b = b.wrapping_add(a)`. -/
def update_fletcher_scalar (w a b : Nat) (elems : List Nat) : Nat × Nat :=
  elems.foldl
    (fun p e =>
      let a1 := wadd w p.1 e
      (a1, wadd w p.2 a1))
    (a, b)

/-- Embeds `slice.chunks(L)`: consecutive chunks of length `L`, the last one
possibly shorter.  Written with an explicit fill buffer so that the
recursion is structural. -/
def chunksAux (L : Nat) : List Nat → List Nat → List (List Nat)
  | buf, [] => if buf.isEmpty then [] else [buf]
  | buf, e :: rest =>
    let buf2 := buf ++ [e]
    if buf2.length = L then buf2 :: chunksAux L [] rest
    else chunksAux L buf2 rest

/-- Embeds `slice.chunks(L)` on a slice. -/
def chunksOf (L : Nat) (l : List Nat) : List (List Nat) := chunksAux L [] l

/-- Embeds `Fletcher::update_with_slice` (src/lib.rs, lines 100-124):
empty-input early return, split at the largest multiple of `NUM_LANES`,
SIMD on the aligned part (if nonempty), scalar on the remainder (if
nonempty).  `L` is `NUM_LANES = MAX_VEC_SIZE / block_size`. -/
def update_with_slice (w L a b : Nat) (data : List Nat) : Nat × Nat :=
  if data.isEmpty then (a, b)
  else
    let simdSlice := data.take (data.length - data.length % L)
    let remainderSlice := data.drop (data.length - data.length % L)
    let p1 :=
      if simdSlice.isEmpty then (a, b)
      else update_fletcher_simd w L a b (chunksOf L simdSlice)
    if remainderSlice.isEmpty then p1
    else update_fletcher_scalar w p1.1 p1.2 remainderSlice

/-- The buffering `filter_map` closure of `update_with_iter`: collects
elements into a `NUM_LANES`-sized buffer and emits a full lane-group each
time the buffer fills.  Returns the emitted groups and the residual buffer
contents (the first `simd_size` lanes of `simd_vec`). -/
def fillGroups (L : Nat) : List Nat → List Nat → List (List Nat) × List Nat
  | buf, [] => ([], buf)
  | buf, e :: rest =>
    let buf2 := buf ++ [e]
    if buf2.length = L then
      let r := fillGroups L [] rest
      (buf2 :: r.1, r.2)
    else fillGroups L buf2 rest

/-- Embeds `Fletcher::update_with_iter` (src/lib.rs, lines 127-162): feed
full lane-groups into `update_fletcher_simd`, then fold a nonempty partial
buffer through `update_fletcher_scalar`. -/
def update_with_iter (w L a b : Nat) (elems : List Nat) : Nat × Nat :=
  let fg := fillGroups L [] elems
  let p1 := update_fletcher_simd w L a b fg.1
  if fg.2.isEmpty then p1
  else update_fletcher_scalar w p1.1 p1.2 fg.2

/-- Embeds `Fletcher::update_with_iter_scalar` (src/lib.rs, lines 166-171). -/
def update_with_iter_scalar (w a b : Nat) (elems : List Nat) : Nat × Nat :=
  update_fletcher_scalar w a b elems

/-- Embeds `Fletcher::value` (src/lib.rs, lines 174-178):
`((b as result) << SHIFT_SIZE) | a as result` where the result type has
`2 * w` bits and `SHIFT_SIZE = w`. -/
def value (w a b : Nat) : Nat := (b <<< w) % 2 ^ (2 * w) ||| a % 2 ^ (2 * w)

/-- Embeds the `From<Fletcher<_>>` conversion (src/lib.rs, lines 181-185),
which returns `f.value()`. -/
def fletcherFrom (w a b : Nat) : Nat := value w a b

/-- Embeds `Fletcher::new` / `Default`: the zero-initialised `(a, b)` state. -/
def fletcherNew : Nat × Nat := (0, 0)

/-- Embeds `Fletcher::with_initial_values`. -/
def with_initial_values (a b : Nat) : Nat × Nat := (a, b)

/-- NUM_LANES as computed per width: `MAX_VEC_SIZE / block_size` where
`block_size` is the block type's size in bytes (`w / 8`). -/
def NUM_LANES (blockSize : Nat) : Nat := MAX_VEC_SIZE / blockSize

/-- The ASCII bytes of the test string "abcdefgh". -/
def abcdefghBytes : List Nat := [97, 98, 99, 100, 101, 102, 103, 104]

/-- Little-endian read of a chunk of bytes into one block value
(the `LittleEndian::read_uN` collaborator of the tests). -/
def leRead (chunk : List Nat) : Nat :=
  chunk.foldr (fun byte acc => byte + 256 * acc) 0

/-- Width-appropriate little-endian block decomposition of a byte string:
chunks of `blockSize` bytes, each read little-endian. -/
def leBlocks (blockSize : Nat) (bytes : List Nat) : List Nat :=
  (chunksOf blockSize bytes).map leRead

/-!
## Proof infrastructure

Wrapping `Nat` arithmetic is transported along `Nat.cast` into the
commutative ring `ZMod (2 ^ w)`, where the lane-correction algebra becomes
ring reasoning; results are carried back to `Nat` because every computed
component is reduced below `2 ^ w`.
-/

instance (w : Nat) : NeZero (2 ^ w) := ⟨(Nat.two_pow_pos w).ne'⟩

theorem wadd_lt (w x y : Nat) : wadd w x y < 2 ^ w :=
  Nat.mod_lt _ (Nat.two_pow_pos w)

theorem wsub_lt (w x y : Nat) : wsub w x y < 2 ^ w :=
  Nat.mod_lt _ (Nat.two_pow_pos w)

theorem cast_wadd (w x y : Nat) :
    ((wadd w x y : Nat) : ZMod (2 ^ w)) = (x : ZMod (2 ^ w)) + y := by
  unfold wadd
  rw [ZMod.natCast_mod, Nat.cast_add]

theorem cast_wmul (w x y : Nat) :
    ((wmul w x y : Nat) : ZMod (2 ^ w)) = (x : ZMod (2 ^ w)) * y := by
  unfold wmul
  rw [ZMod.natCast_mod, Nat.cast_mul]

theorem cast_wsub (w x y : Nat) :
    ((wsub w x y : Nat) : ZMod (2 ^ w)) = (x : ZMod (2 ^ w)) - y := by
  have hy : y % 2 ^ w ≤ 2 ^ w := le_of_lt (Nat.mod_lt _ (Nat.two_pow_pos w))
  unfold wsub
  rw [ZMod.natCast_mod, Nat.cast_add, Nat.cast_sub hy, ZMod.natCast_mod,
    ZMod.natCast_mod]
  have hself : ((2 ^ w : Nat) : ZMod (2 ^ w)) = 0 := by
    exact_mod_cast ZMod.natCast_self (2 ^ w)
  rw [hself]
  ring

theorem cast_hsum (w : Nat) (v : List Nat) :
    ((horizontal_sum w v : Nat) : ZMod (2 ^ w)) = ((v.sum : Nat) : ZMod (2 ^ w)) := by
  unfold horizontal_sum
  rw [ZMod.natCast_mod]

theorem natEq_of_castEq (w x y : Nat) (hx : x < 2 ^ w) (hy : y < 2 ^ w)
    (h : (x : ZMod (2 ^ w)) = (y : ZMod (2 ^ w))) : x = y := by
  have hv := congrArg ZMod.val h
  rwa [ZMod.val_cast_of_lt hx, ZMod.val_cast_of_lt hy] at hv

/-- The scalar recurrence transported to `ZMod (2 ^ w)`. -/
def scalarStepsZ (w : Nat) :
    ZMod (2 ^ w) → ZMod (2 ^ w) → List (ZMod (2 ^ w)) →
      ZMod (2 ^ w) × ZMod (2 ^ w)
  | a, b, [] => (a, b)
  | a, b, e :: l => scalarStepsZ w (a + e) (b + (a + e)) l

theorem scalar_nil (w a b : Nat) : update_fletcher_scalar w a b [] = (a, b) := rfl

theorem scalar_cons (w a b e : Nat) (l : List Nat) :
    update_fletcher_scalar w a b (e :: l)
      = update_fletcher_scalar w (wadd w a e) (wadd w b (wadd w a e)) l := rfl

theorem scalar_append (w a b : Nat) (l1 l2 : List Nat) :
    update_fletcher_scalar w a b (l1 ++ l2)
      = update_fletcher_scalar w (update_fletcher_scalar w a b l1).1
          (update_fletcher_scalar w a b l1).2 l2 := by
  unfold update_fletcher_scalar
  rw [List.foldl_append]

theorem scalar_cast (w : Nat) (l : List Nat) : ∀ a b : Nat,
    (((update_fletcher_scalar w a b l).1 : ZMod (2 ^ w)),
     ((update_fletcher_scalar w a b l).2 : ZMod (2 ^ w)))
      = scalarStepsZ w (a : ZMod (2 ^ w)) (b : ZMod (2 ^ w)) (l.map Nat.cast) := by
  induction l with
  | nil => intro a b; rfl
  | cons e t ih =>
    intro a b
    rw [scalar_cons, ih]
    simp only [List.map_cons, scalarStepsZ, cast_wadd]

/-- Reverse-weighted sum: element at 0-indexed position `j` of an
`n`-element list is weighted `n - j`. -/
def wSumZ (w : Nat) : List (ZMod (2 ^ w)) → ZMod (2 ^ w)
  | [] => 0
  | e :: l => ((l.length : ZMod (2 ^ w)) + 1) * e + wSumZ w l

/-- Index-weighted sum starting from index `j`: element at position `i`
of the list is weighted `j + i`. -/
def mSumZ (w : Nat) : Nat → List (ZMod (2 ^ w)) → ZMod (2 ^ w)
  | _, [] => 0
  | j, e :: l => (j : ZMod (2 ^ w)) * e + mSumZ w (j + 1) l

theorem scalarStepsZ_closed (w : Nat) (l : List (ZMod (2 ^ w))) :
    ∀ a b : ZMod (2 ^ w),
      scalarStepsZ w a b l
        = (a + l.sum, b + (l.length : ZMod (2 ^ w)) * a + wSumZ w l) := by
  induction l with
  | nil => intro a b; simp [scalarStepsZ, wSumZ]
  | cons e t ih =>
    intro a b
    show scalarStepsZ w (a + e) (b + (a + e)) t = _
    rw [ih]
    simp only [List.sum_cons, List.length_cons, wSumZ, Prod.mk.injEq]
    constructor
    · ring
    · push_cast
      ring

theorem wSumZ_append (w : Nat) (l1 l2 : List (ZMod (2 ^ w))) :
    wSumZ w (l1 ++ l2)
      = wSumZ w l1 + (l2.length : ZMod (2 ^ w)) * l1.sum + wSumZ w l2 := by
  induction l1 with
  | nil => simp [wSumZ]
  | cons e t ih =>
    simp only [List.cons_append, wSumZ, List.append_eq, List.length_append,
      List.sum_cons, ih]
    push_cast
    ring

theorem wSumZ_add_mSumZ (w : Nat) (g : List (ZMod (2 ^ w))) : ∀ j : Nat,
    wSumZ w g + mSumZ w j g
      = ((g.length : ZMod (2 ^ w)) + j) * g.sum := by
  induction g with
  | nil => intro j; simp [wSumZ, mSumZ]
  | cons e t ih =>
    intro j
    simp only [wSumZ, mSumZ, List.length_cons, List.sum_cons]
    have h := ih (j + 1)
    push_cast at h ⊢
    linear_combination h

theorem vwadd_length (w : Nat) (u v : List Nat) :
    (vwadd w u v).length = min u.length v.length := by
  simp [vwadd]

theorem cast_sum_vwadd (w : Nat) :
    ∀ (u v : List Nat), u.length = v.length →
      (((vwadd w u v).sum : Nat) : ZMod (2 ^ w))
        = ((u.sum : Nat) : ZMod (2 ^ w)) + ((v.sum : Nat) : ZMod (2 ^ w))
  | [], [], _ => by simp [vwadd]
  | [], _ :: _, h => by simp at h
  | _ :: _, [], h => by simp at h
  | x :: u, y :: v, h => by
    have h' : u.length = v.length := by simpa using h
    have ih := cast_sum_vwadd w u v h'
    simp only [vwadd, List.zipWith_cons_cons, List.sum_cons, Nat.cast_add,
      cast_wadd]
    simp only [vwadd] at ih
    rw [ih]
    push_cast
    ring

theorem cast_sum_vwmul_range' (w : Nat) (v : List Nat) : ∀ j : Nat,
    (((vwmul w v (List.range' j v.length)).sum : Nat) : ZMod (2 ^ w))
      = mSumZ w j (v.map Nat.cast) := by
  induction v with
  | nil => intro j; simp [vwmul, mSumZ]
  | cons x t ih =>
    intro j
    rw [List.length_cons, List.range'_succ]
    simp only [vwmul, List.zipWith_cons_cons, List.sum_cons, Nat.cast_add,
      cast_wmul, List.map_cons, mSumZ]
    simp only [vwmul] at ih
    rw [ih (j + 1)]
    ring

theorem cast_sum_vwmul_add (w : Nat) :
    ∀ (u g m : List Nat), u.length = g.length →
      (((vwmul w (vwadd w u g) m).sum : Nat) : ZMod (2 ^ w))
        = (((vwmul w u m).sum : Nat) : ZMod (2 ^ w))
          + (((vwmul w g m).sum : Nat) : ZMod (2 ^ w))
  | [], [], m, _ => by simp [vwadd, vwmul]
  | [], _ :: _, _, h => by simp at h
  | _ :: _, [], _, h => by simp at h
  | x :: u, y :: g, [], h => by simp [vwadd, vwmul]
  | x :: u, y :: g, k :: m, h => by
    have h' : u.length = g.length := by simpa using h
    have ih := cast_sum_vwmul_add w u g m h'
    simp only [vwadd, vwmul, List.zipWith_cons_cons, List.sum_cons,
      Nat.cast_add, cast_wmul, cast_wadd]
    simp only [vwadd, vwmul] at ih
    rw [ih]
    push_cast
    ring

theorem vwmul_replicate_zero_sum (w : Nat) :
    ∀ (k : Nat) (m : List Nat), (vwmul w (List.replicate k 0) m).sum = 0
  | 0, m => by simp [vwmul]
  | _ + 1, [] => by simp [vwmul]
  | n + 1, x :: t => by
    have ih := vwmul_replicate_zero_sum w n t
    simp only [List.replicate_succ, vwmul, List.zipWith_cons_cons,
      List.sum_cons, wmul, Nat.zero_mul, Nat.zero_mod, Nat.zero_add]
    simpa [vwmul, wmul] using ih

theorem simdFold_inv (w L : Nat) :
    ∀ (gs : List (List Nat)) (u v : List Nat),
      u.length = L → v.length = L → (∀ g ∈ gs, g.length = L) →
      (gs.foldl (simdStep w) (u, v)).1.length = L
      ∧ (gs.foldl (simdStep w) (u, v)).2.length = L
      ∧ ((((gs.foldl (simdStep w) (u, v)).1.sum : Nat) : ZMod (2 ^ w)),
         (((gs.foldl (simdStep w) (u, v)).2.sum : Nat) : ZMod (2 ^ w)))
          = scalarStepsZ w ((u.sum : Nat) : ZMod (2 ^ w))
              ((v.sum : Nat) : ZMod (2 ^ w))
              (gs.map (fun g => ((g.sum : Nat) : ZMod (2 ^ w))))
      ∧ (((vwmul w (gs.foldl (simdStep w) (u, v)).1 (List.range L)).sum : Nat) :
            ZMod (2 ^ w))
          = (((vwmul w u (List.range L)).sum : Nat) : ZMod (2 ^ w))
            + (gs.map
                (fun g => (((vwmul w g (List.range L)).sum : Nat) : ZMod (2 ^ w)))).sum := by
  intro gs
  induction gs with
  | nil =>
    intro u v hu hv _
    exact ⟨hu, hv, rfl, by simp⟩
  | cons g t ih =>
    intro u v hu hv hgs
    have hg : g.length = L := hgs g (by simp)
    have ht : ∀ x ∈ t, x.length = L := fun x hx => hgs x (List.mem_cons_of_mem _ hx)
    have hug : u.length = g.length := by rw [hu, hg]
    have hu' : (vwadd w u g).length = L := by
      rw [vwadd_length, hu, hg, Nat.min_self]
    have hv' : (vwadd w v (vwadd w u g)).length = L := by
      rw [vwadd_length, hv, hu', Nat.min_self]
    have hvu : v.length = (vwadd w u g).length := by rw [hv, hu']
    have hstep : List.foldl (simdStep w) (u, v) (g :: t)
        = List.foldl (simdStep w) (vwadd w u g, vwadd w v (vwadd w u g)) t := rfl
    rw [hstep]
    obtain ⟨h1, h2, h3, h4⟩ := ih (vwadd w u g) (vwadd w v (vwadd w u g)) hu' hv' ht
    refine ⟨h1, h2, ?_, ?_⟩
    · rw [h3, cast_sum_vwadd w v (vwadd w u g) hvu, cast_sum_vwadd w u g hug]
      simp only [List.map_cons]
      rfl
    · rw [h4, cast_sum_vwmul_add w u g (List.range L) hug]
      simp only [List.map_cons, List.sum_cons]
      ring

theorem flatten_length_mul {α : Type} (L : Nat) :
    ∀ GS : List (List α), (∀ g ∈ GS, g.length = L) →
      GS.flatten.length = GS.length * L := by
  intro GS
  induction GS with
  | nil => simp
  | cons g t ih =>
    intro h
    have hg : g.length = L := h g (by simp)
    have ht : ∀ x ∈ t, x.length = L := fun x hx => h x (List.mem_cons_of_mem _ hx)
    simp only [List.flatten_cons, List.length_append, List.length_cons, ih ht, hg]
    ring

theorem wSumZ_flatten (w L : Nat) :
    ∀ GS : List (List (ZMod (2 ^ w))), (∀ g ∈ GS, g.length = L) →
      wSumZ w GS.flatten
        = (L : ZMod (2 ^ w)) * wSumZ w (GS.map List.sum)
          - (GS.map (mSumZ w 0)).sum := by
  intro GS
  induction GS with
  | nil => simp [wSumZ]
  | cons g t ih =>
    intro h
    have hg : g.length = L := h g (by simp)
    have ht : ∀ x ∈ t, x.length = L := fun x hx => h x (List.mem_cons_of_mem _ hx)
    have hkey : wSumZ w g = (L : ZMod (2 ^ w)) * g.sum - mSumZ w 0 g := by
      have hm := wSumZ_add_mSumZ w g 0
      rw [hg] at hm
      push_cast at hm
      linear_combination hm
    rw [List.flatten_cons, wSumZ_append, ih ht, flatten_length_mul L t ht, hkey]
    simp only [List.map_cons, wSumZ, List.sum_cons, List.length_map]
    push_cast
    ring

theorem simd_unfold (w L a b : Nat) (gs : List (List Nat)) :
    update_fletcher_simd w L a b gs
      = (wadd w a (horizontal_sum w (simdAccumLoop w L gs).1),
         wsub w
           (wadd w b (wmul w L (horizontal_sum w (simdAccumLoop w L gs).2)))
           (horizontal_sum w
             (vwmul w (simdAccumLoop w L gs).1 (List.range L)))) := rfl

theorem simd_lt (w L a b : Nat) (gs : List (List Nat)) :
    (update_fletcher_simd w L a b gs).1 < 2 ^ w
    ∧ (update_fletcher_simd w L a b gs).2 < 2 ^ w := by
  rw [simd_unfold]
  exact ⟨wadd_lt _ _ _, wsub_lt _ _ _⟩

theorem scalar_cast_1 (w a b : Nat) (l : List Nat) :
    ((update_fletcher_scalar w a b l).1 : ZMod (2 ^ w))
      = (a : ZMod (2 ^ w)) + (l.map (Nat.cast : Nat → ZMod (2 ^ w))).sum := by
  have h := congrArg Prod.fst (scalar_cast w l a b)
  rw [scalarStepsZ_closed] at h
  simpa using h

theorem scalar_cast_2 (w a b : Nat) (l : List Nat) :
    ((update_fletcher_scalar w a b l).2 : ZMod (2 ^ w))
      = (b : ZMod (2 ^ w)) + (l.length : ZMod (2 ^ w)) * a
        + wSumZ w (l.map Nat.cast) := by
  have h := congrArg Prod.snd (scalar_cast w l a b)
  rw [scalarStepsZ_closed] at h
  simpa using h

theorem simd_cast_1 (w L a b : Nat) (gs : List (List Nat))
    (hgs : ∀ g ∈ gs, g.length = L) :
    ((update_fletcher_simd w L a b gs).1 : ZMod (2 ^ w))
      = (a : ZMod (2 ^ w))
        + (gs.map (fun g => ((g.sum : Nat) : ZMod (2 ^ w)))).sum := by
  have hrep : (List.replicate L (0 : Nat)).length = L := by simp
  obtain ⟨-, -, h3, -⟩ :=
    simdFold_inv w L gs (List.replicate L 0) (List.replicate L 0) hrep hrep hgs
  have h1 := congrArg Prod.fst h3
  rw [scalarStepsZ_closed] at h1
  have hz : (List.replicate L (0 : Nat)).sum = 0 := by simp
  rw [hz] at h1
  rw [simd_unfold]
  simp only [cast_wadd, cast_hsum, simdAccumLoop]
  simp only [hz, Nat.cast_zero, zero_add] at h1 ⊢
  rw [h1]

theorem simd_cast_2 (w L a b : Nat) (gs : List (List Nat))
    (hgs : ∀ g ∈ gs, g.length = L) :
    ((update_fletcher_simd w L a b gs).2 : ZMod (2 ^ w))
      = (b : ZMod (2 ^ w))
        + (L : ZMod (2 ^ w))
            * wSumZ w (gs.map (fun g => ((g.sum : Nat) : ZMod (2 ^ w))))
        - (gs.map (fun g => mSumZ w 0 (g.map Nat.cast))).sum := by
  have hrep : (List.replicate L (0 : Nat)).length = L := by simp
  obtain ⟨-, -, h3, h4⟩ :=
    simdFold_inv w L gs (List.replicate L 0) (List.replicate L 0) hrep hrep hgs
  have h2 := congrArg Prod.snd h3
  rw [scalarStepsZ_closed] at h2
  have hz : (List.replicate L (0 : Nat)).sum = 0 := by simp
  rw [hz] at h2
  rw [vwmul_replicate_zero_sum w L (List.range L)] at h4
  simp only [Nat.cast_zero, zero_add, mul_zero, add_zero] at h2 h4
  have hper : ∀ g ∈ gs,
      (((vwmul w g (List.range L)).sum : Nat) : ZMod (2 ^ w))
        = mSumZ w 0 (g.map Nat.cast) := by
    intro g hgmem
    rw [List.range_eq_range', ← hgs g hgmem]
    exact cast_sum_vwmul_range' w g 0
  rw [simd_unfold]
  simp only [cast_wsub, cast_wadd, cast_wmul, cast_hsum, simdAccumLoop]
  rw [h2, h4, List.map_congr_left hper]

theorem simd_eq_scalar_correction (w L a b : Nat) (gs : List (List Nat))
    (hgs : ∀ g ∈ gs, g.length = L) :
    update_fletcher_simd w L a b gs
      = ((update_fletcher_scalar w a b gs.flatten).1 % 2 ^ w,
         ((update_fletcher_scalar w a b gs.flatten).2 % 2 ^ w
            + (2 ^ w - gs.length * L * a % 2 ^ w)) % 2 ^ w) := by
  have hMpos := Nat.two_pow_pos w
  obtain ⟨lt1, lt2⟩ := simd_lt w L a b gs
  have hflatsum :
      (gs.flatten.map (Nat.cast : Nat → ZMod (2 ^ w))).sum
        = (gs.map (fun g => ((g.sum : Nat) : ZMod (2 ^ w)))).sum := by
    rw [List.map_flatten, List.sum_flatten, List.map_map]
    refine congrArg List.sum (List.map_congr_left ?_)
    intro g _
    simp [Function.comp, Nat.cast_list_sum]
  refine Prod.ext_iff.mpr
    ⟨natEq_of_castEq w _ _ lt1 (Nat.mod_lt _ hMpos) ?_,
     natEq_of_castEq w _ _ lt2 (Nat.mod_lt _ hMpos) ?_⟩
  · rw [simd_cast_1 w L a b gs hgs, ZMod.natCast_mod, scalar_cast_1, hflatsum]
  · have hD : gs.length * L * a % 2 ^ w ≤ 2 ^ w :=
      le_of_lt (Nat.mod_lt _ hMpos)
    have hself : ((2 ^ w : Nat) : ZMod (2 ^ w)) = 0 := by
      exact_mod_cast ZMod.natCast_self (2 ^ w)
    have hWS : wSumZ w (gs.flatten.map (Nat.cast : Nat → ZMod (2 ^ w)))
        = (L : ZMod (2 ^ w))
            * wSumZ w (gs.map (fun g => ((g.sum : Nat) : ZMod (2 ^ w))))
          - (gs.map (fun g => mSumZ w 0 (g.map Nat.cast))).sum := by
      have hlen :
          ∀ g' ∈ gs.map (List.map (Nat.cast : Nat → ZMod (2 ^ w))),
            g'.length = L := by
        intro g' hg'
        obtain ⟨g, hgmem, rfl⟩ := List.mem_map.mp hg'
        simp [hgs g hgmem]
      have h := wSumZ_flatten w L (gs.map (List.map Nat.cast)) hlen
      rw [← List.map_flatten] at h
      have hmap1 :
          gs.map (List.sum ∘ List.map (Nat.cast : Nat → ZMod (2 ^ w)))
            = gs.map (fun g => ((g.sum : Nat) : ZMod (2 ^ w))) :=
        List.map_congr_left fun g _ => by simp [Function.comp, Nat.cast_list_sum]
      have hmap2 :
          gs.map ((mSumZ w 0) ∘ List.map (Nat.cast : Nat → ZMod (2 ^ w)))
            = gs.map (fun g => mSumZ w 0 (g.map Nat.cast)) :=
        List.map_congr_left fun g _ => rfl
      rw [h, List.map_map, List.map_map, hmap1, hmap2]
    rw [simd_cast_2 w L a b gs hgs, ZMod.natCast_mod, Nat.cast_add,
      ZMod.natCast_mod, scalar_cast_2, Nat.cast_sub hD, ZMod.natCast_mod, hself,
      flatten_length_mul L gs hgs, hWS]
    push_cast
    ring

theorem scalar_lt (w : Nat) (l : List Nat) : ∀ a b : Nat, l ≠ [] →
    (update_fletcher_scalar w a b l).1 < 2 ^ w
    ∧ (update_fletcher_scalar w a b l).2 < 2 ^ w := by
  induction l with
  | nil => intro a b h; exact absurd rfl h
  | cons e t ih =>
    intro a b _
    cases t with
    | nil =>
      rw [scalar_cons, scalar_nil]
      exact ⟨wadd_lt _ _ _, wadd_lt _ _ _⟩
    | cons f t2 =>
      rw [scalar_cons]
      exact ih _ _ (by simp)

theorem scalar_b_translate (w x y d : Nat) (q : List Nat) (hq : q ≠ []) :
    update_fletcher_scalar w x ((y + d) % 2 ^ w) q
      = ((update_fletcher_scalar w x y q).1,
         ((update_fletcher_scalar w x y q).2 + d) % 2 ^ w) := by
  obtain ⟨l1, l2⟩ := scalar_lt w q x ((y + d) % 2 ^ w) hq
  obtain ⟨r1, r2⟩ := scalar_lt w q x y hq
  refine Prod.ext_iff.mpr
    ⟨natEq_of_castEq w _ _ l1 r1 ?_,
     natEq_of_castEq w _ _ l2 (Nat.mod_lt _ (Nat.two_pow_pos w)) ?_⟩
  · rw [scalar_cast_1, scalar_cast_1]
  · rw [scalar_cast_2, ZMod.natCast_mod, Nat.cast_add, ZMod.natCast_mod,
      Nat.cast_add, scalar_cast_2]
    ring

theorem simd_nil (w L a b : Nat) (ha : a < 2 ^ w) (hb : b < 2 ^ w) :
    update_fletcher_simd w L a b [] = (a, b) := by
  have h := simd_eq_scalar_correction w L a b [] (by simp)
  rw [h]
  simp only [List.flatten_nil, scalar_nil, List.length_nil, Nat.zero_mul,
    Nat.zero_mod, Nat.sub_zero, Nat.add_mod_right]
  rw [Nat.mod_eq_of_lt ha,
    Nat.mod_eq_of_lt (Nat.mod_lt b (Nat.two_pow_pos w)), Nat.mod_eq_of_lt hb]

theorem chunksAux_flatten (L : Nat) : ∀ l buf : List Nat,
    (chunksAux L buf l).flatten = buf ++ l := by
  intro l
  induction l with
  | nil =>
    intro buf
    show (if buf.isEmpty then ([] : List (List Nat)) else [buf]).flatten = buf ++ []
    split
    · next h => simp_all
    · simp
  | cons e rest ih =>
    intro buf
    show (if (buf ++ [e]).length = L then (buf ++ [e]) :: chunksAux L [] rest
          else chunksAux L (buf ++ [e]) rest).flatten = buf ++ e :: rest
    split
    · simp [ih]
    · rw [ih]
      simp

theorem chunksAux_mem_length (L : Nat) (hL : 0 < L) : ∀ l buf : List Nat,
    buf.length < L → L ∣ buf.length + l.length →
    ∀ g ∈ chunksAux L buf l, g.length = L := by
  intro l
  induction l with
  | nil =>
    intro buf hbuf hdvd g hg
    have hbe : buf = [] :=
      List.eq_nil_of_length_eq_zero
        (Nat.eq_zero_of_dvd_of_lt (by simpa using hdvd) hbuf)
    subst hbe
    simp [chunksAux] at hg
  | cons e rest ih =>
    intro buf hbuf hdvd g hg
    rw [show chunksAux L buf (e :: rest)
          = (if (buf ++ [e]).length = L then (buf ++ [e]) :: chunksAux L [] rest
             else chunksAux L (buf ++ [e]) rest) from rfl] at hg
    have hlen : (buf ++ [e]).length = buf.length + 1 := by simp
    by_cases hfull : (buf ++ [e]).length = L
    · rw [if_pos hfull] at hg
      rcases List.mem_cons.mp hg with hg1 | hg2
      · rw [hg1]; exact hfull
      · have hfull' : buf.length + 1 = L := by rw [← hlen]; exact hfull
        have hd2 : L ∣ rest.length := by
          have h5 : buf.length + (e :: rest).length = L + rest.length := by
            simp only [List.length_cons]
            omega
          rw [h5] at hdvd
          exact (Nat.dvd_add_right (dvd_refl L)).mp hdvd
        exact ih [] (by simpa using hL) (by simpa using hd2) g hg2
    · rw [if_neg hfull] at hg
      rw [hlen] at hfull
      have hbuf2 : (buf ++ [e]).length < L := by rw [hlen]; omega
      refine ih (buf ++ [e]) hbuf2 ?_ g hg
      have h6 : (buf ++ [e]).length + rest.length = buf.length + (e :: rest).length := by
        simp only [List.length_cons]
        omega
      rw [h6]
      exact hdvd

theorem chunksOf_flatten (L : Nat) (l : List Nat) :
    (chunksOf L l).flatten = l := by
  unfold chunksOf
  rw [chunksAux_flatten]
  rfl

theorem chunksOf_mem_length (L : Nat) (hL : 0 < L) (l : List Nat)
    (hdvd : L ∣ l.length) : ∀ g ∈ chunksOf L l, g.length = L := by
  unfold chunksOf
  exact chunksAux_mem_length L hL l [] (by simpa using hL) (by simpa using hdvd)

theorem chunksOf_count (L : Nat) (hL : 0 < L) (l : List Nat)
    (hdvd : L ∣ l.length) : (chunksOf L l).length * L = l.length := by
  have h := flatten_length_mul L (chunksOf L l) (chunksOf_mem_length L hL l hdvd)
  rw [chunksOf_flatten] at h
  omega

theorem slice_unfold (w L a b : Nat) (data : List Nat) (hne : data ≠ []) :
    update_with_slice w L a b data
      = (let p := data.take (data.length - data.length % L)
         let q := data.drop (data.length - data.length % L)
         let p1 :=
           if p.isEmpty then (a, b)
           else update_fletcher_simd w L a b (chunksOf L p)
         if q.isEmpty then p1 else update_fletcher_scalar w p1.1 p1.2 q) := by
  obtain ⟨x, xs, rfl⟩ := List.exists_cons_of_ne_nil hne
  rfl

/-- Characterisation of `update_with_slice`: it computes the scalar result
of the whole input except that the `b`-half misses the contribution
`(aligned length) * (incoming a)`, because `update_fletcher_simd` never adds
the incoming `a` into its `b` accumulation. -/
theorem slice_spec (w L a b : Nat) (data : List Nat) (hL : 0 < L)
    (ha : a < 2 ^ w) (hb : b < 2 ^ w) :
    update_with_slice w L a b data
      = ((update_fletcher_scalar w a b data).1 % 2 ^ w,
         ((update_fletcher_scalar w a b data).2 % 2 ^ w
            + (2 ^ w - (data.length - data.length % L) * a % 2 ^ w)) % 2 ^ w) := by
  have hMpos := Nat.two_pow_pos w
  by_cases hdata : data = []
  · subst hdata
    rw [show update_with_slice w L a b [] = (a, b) from rfl, scalar_nil]
    simp only [List.length_nil, Nat.zero_mod, Nat.sub_zero, Nat.zero_mul,
      Nat.add_mod_right]
    rw [Nat.mod_eq_of_lt ha,
      Nat.mod_eq_of_lt (Nat.mod_lt b hMpos), Nat.mod_eq_of_lt hb]
  · have hne : data ≠ [] := hdata
    have hnpos : 0 < data.length := List.length_pos.mpr hne
    have hr_lt : data.length % L < L := Nat.mod_lt _ hL
    have hdm := Nat.div_add_mod data.length L
    rw [slice_unfold w L a b data hne]
    by_cases hqe : data.drop (data.length - data.length % L) = []
    · -- remainder empty: the whole input is lane-aligned
      have hr0 : data.length % L = 0 := by
        have := List.drop_eq_nil_iff.mp hqe
        omega
      have hpe : data.take (data.length - data.length % L) = data := by
        rw [hr0, Nat.sub_zero, List.take_length]
      have hdvd : L ∣ data.length := Nat.dvd_of_mod_eq_zero hr0
      simp only [hpe, hqe, List.isEmpty_nil, if_true, List.isEmpty_eq_true, hne,
        if_false]
      rw [simd_eq_scalar_correction w L a b (chunksOf L data)
            (chunksOf_mem_length L hL data hdvd),
        chunksOf_flatten, chunksOf_count L hL data hdvd, hr0, Nat.sub_zero]
    · by_cases hpe : data.take (data.length - data.length % L) = []
      · -- no aligned part: everything goes through the scalar path
        have hk0 : data.length - data.length % L = 0 := by
          rcases List.take_eq_nil_iff.mp hpe with h | h
          · exact h
          · exact absurd h hne
        obtain ⟨s1, s2⟩ := scalar_lt w data a b hne
        simp only [hpe, List.isEmpty_nil, if_true, List.isEmpty_eq_true, hqe,
          if_false, hk0, List.drop_zero, Nat.zero_mul, Nat.zero_mod,
          Nat.sub_zero, Nat.add_mod_right]
        rw [Nat.mod_eq_of_lt (Nat.mod_lt _ hMpos), Nat.mod_eq_of_lt s1,
          Nat.mod_eq_of_lt s2, if_neg hne, List.take_zero, if_pos rfl]
      · -- both an aligned part and a remainder
        have hk_le : data.length - data.length % L ≤ data.length := Nat.sub_le _ _
        have hplen : (data.take (data.length - data.length % L)).length
            = data.length - data.length % L := by
          simp [Nat.min_eq_left hk_le]
        have hdvd_p : L ∣ (data.take (data.length - data.length % L)).length := by
          rw [hplen]
          exact ⟨data.length / L, by omega⟩
        simp only [List.isEmpty_eq_true, hpe, hqe, if_false]
        rw [simd_eq_scalar_correction w L a b _ (chunksOf_mem_length L hL _ hdvd_p),
          chunksOf_flatten, chunksOf_count L hL _ hdvd_p, hplen]
        obtain ⟨p1lt, p2lt⟩ := scalar_lt w _ a b hpe
        rw [Nat.mod_eq_of_lt p1lt, Nat.mod_eq_of_lt p2lt]
        rw [scalar_b_translate w _ _ _ _ hqe]
        have happ := scalar_append w a b
          (data.take (data.length - data.length % L))
          (data.drop (data.length - data.length % L))
        rw [List.take_append_drop] at happ
        rw [← happ]
        obtain ⟨d1lt, d2lt⟩ := scalar_lt w data a b hne
        rw [Nat.mod_eq_of_lt d1lt, Nat.mod_eq_of_lt d2lt]

theorem take_add' {α : Type} (l : List α) (m n : Nat) :
    l.take (m + n) = l.take m ++ (l.drop m).take n := by
  rw [List.take_drop]
  conv_lhs => rw [← List.take_append_drop m (l.take (m + n))]
  congr 1
  rw [List.take_take, Nat.min_eq_left (Nat.le_add_right m n)]

theorem fillGroups_nil (L : Nat) (buf : List Nat) :
    fillGroups L buf [] = ([], buf) := rfl

theorem fillGroups_cons (L e : Nat) (buf rest : List Nat) :
    fillGroups L buf (e :: rest)
      = if (buf ++ [e]).length = L
        then ((buf ++ [e]) :: (fillGroups L [] rest).1, (fillGroups L [] rest).2)
        else fillGroups L (buf ++ [e]) rest := rfl

theorem chunksAux_cons (L e : Nat) (buf rest : List Nat) :
    chunksAux L buf (e :: rest)
      = if (buf ++ [e]).length = L
        then (buf ++ [e]) :: chunksAux L [] rest
        else chunksAux L (buf ++ [e]) rest := rfl

theorem fillGroups_short (L : Nat) : ∀ l buf : List Nat,
    buf.length + l.length < L → fillGroups L buf l = ([], buf ++ l) := by
  intro l
  induction l with
  | nil => intro buf _; rw [fillGroups_nil]; simp
  | cons e rest ih =>
    intro buf h
    simp only [List.length_cons] at h
    rw [fillGroups_cons,
      if_neg (by simp only [List.length_append, List.length_cons,
        List.length_nil]; omega),
      ih (buf ++ [e]) (by simp only [List.length_append, List.length_cons,
        List.length_nil]; omega)]
    simp

theorem fillGroups_step (L : Nat) : ∀ xs buf rest : List Nat,
    xs ≠ [] → buf.length + xs.length = L →
    fillGroups L buf (xs ++ rest)
      = ((buf ++ xs) :: (fillGroups L [] rest).1, (fillGroups L [] rest).2) := by
  intro xs
  induction xs with
  | nil => intro buf rest h _; exact absurd rfl h
  | cons e xs2 ih =>
    intro buf rest _ hlen
    simp only [List.length_cons] at hlen
    rw [List.cons_append, fillGroups_cons]
    by_cases hx2 : xs2 = []
    · subst hx2
      rw [if_pos (by simp only [List.length_append, List.length_cons,
        List.length_nil] at hlen ⊢; omega)]
      simp
    · have hx2len : 0 < xs2.length := List.length_pos.mpr hx2
      rw [if_neg (by simp only [List.length_append, List.length_cons,
          List.length_nil]; omega),
        ih (buf ++ [e]) rest hx2 (by simp only [List.length_append,
          List.length_cons, List.length_nil]; omega)]
      simp

theorem chunksAux_step (L : Nat) : ∀ xs buf rest : List Nat,
    xs ≠ [] → buf.length + xs.length = L →
    chunksAux L buf (xs ++ rest) = (buf ++ xs) :: chunksAux L [] rest := by
  intro xs
  induction xs with
  | nil => intro buf rest h _; exact absurd rfl h
  | cons e xs2 ih =>
    intro buf rest _ hlen
    simp only [List.length_cons] at hlen
    rw [List.cons_append, chunksAux_cons]
    by_cases hx2 : xs2 = []
    · subst hx2
      rw [if_pos (by simp only [List.length_append, List.length_cons,
        List.length_nil] at hlen ⊢; omega)]
      simp
    · have hx2len : 0 < xs2.length := List.length_pos.mpr hx2
      rw [if_neg (by simp only [List.length_append, List.length_cons,
          List.length_nil]; omega),
        ih (buf ++ [e]) rest hx2 (by simp only [List.length_append,
          List.length_cons, List.length_nil]; omega)]
      simp

theorem fillGroups_eq_chunks (L : Nat) (hL : 0 < L) : ∀ data : List Nat,
    fillGroups L [] data
      = (chunksOf L (data.take (data.length - data.length % L)),
         data.drop (data.length - data.length % L)) := by
  have main : ∀ (n : Nat) (data : List Nat), data.length = n →
      fillGroups L [] data
        = (chunksOf L (data.take (data.length - data.length % L)),
           data.drop (data.length - data.length % L)) := by
    intro n
    induction n using Nat.strong_induction_on with
    | _ n ih =>
      intro data hlen
      by_cases hsmall : data.length < L
      · have hr : data.length % L = data.length := Nat.mod_eq_of_lt hsmall
        rw [fillGroups_short L data [] (by simpa using hsmall), hr,
          Nat.sub_self, List.take_zero, List.drop_zero]
        rfl
      · push_neg at hsmall
        have htake : (data.take L).length = L := by
          simp [Nat.min_eq_left hsmall]
        have htake_ne : data.take L ≠ [] := by
          intro hc
          rw [hc] at htake
          simp at htake
          omega
        have hmodsub : (data.length - L) % L = data.length % L :=
          (Nat.mod_eq_sub_mod hsmall).symm
        have hmod_le : (data.length - L) % L ≤ data.length - L := Nat.mod_le _ _
        have hr_le : data.length % L ≤ data.length - L := by
          rw [← hmodsub]; exact hmod_le
        have hL_le_k : L ≤ data.length - data.length % L := by omega
        have hdroplen : (data.drop L).length = data.length - L := by simp
        conv_lhs => rw [← List.take_append_drop L data]
        rw [fillGroups_step L (data.take L) [] (data.drop L) htake_ne
            (by simp [htake])]
        rw [ih (data.length - L) (by omega) (data.drop L) hdroplen]
        have hsub : (data.drop L).length - (data.drop L).length % L
            = (data.length - data.length % L) - L := by
          rw [hdroplen, hmodsub]
          omega
        rw [hsub]
        have hk_eq : data.length - data.length % L
            = L + (data.length - data.length % L - L) := by omega
        refine Prod.ext_iff.mpr ⟨?_, ?_⟩
        · show ([] ++ data.take L)
              :: chunksOf L ((data.drop L).take (data.length - data.length % L - L))
            = chunksOf L (data.take (data.length - data.length % L))
          conv_rhs => rw [hk_eq, take_add' data L _]
          show _ = chunksAux L []
            (data.take L ++ (data.drop L).take (data.length - data.length % L - L))
          rw [chunksAux_step L (data.take L) [] _ htake_ne (by simp [htake])]
          rfl
        · show (data.drop L).drop (data.length - data.length % L - L)
            = data.drop (data.length - data.length % L)
          rw [List.drop_drop]
          congr 1
          omega
  intro data
  exact main data.length data rfl

theorem iter_eq_slice (w L a b : Nat) (data : List Nat) (hL : 0 < L)
    (ha : a < 2 ^ w) (hb : b < 2 ^ w) :
    update_with_iter w L a b data = update_with_slice w L a b data := by
  simp only [update_with_iter]
  rw [fillGroups_eq_chunks L hL data]
  by_cases hdata : data = []
  · subst hdata
    show (if (([] : List Nat).drop 0).isEmpty
          then update_fletcher_simd w L a b (chunksOf L (([] : List Nat).take 0))
          else _) = _
    rw [show chunksOf L (([] : List Nat).take 0) = [] from rfl]
    rw [show update_with_slice w L a b [] = (a, b) from rfl]
    simp only [List.drop_nil, List.isEmpty_nil, if_true]
    exact simd_nil w L a b ha hb
  · rw [slice_unfold w L a b data hdata]
    by_cases hpe : data.take (data.length - data.length % L) = []
    · rw [hpe]
      rw [show chunksOf L ([] : List Nat) = [] from rfl]
      rw [simd_nil w L a b ha hb]
      simp only [List.isEmpty_nil, if_true]
    · simp only [List.isEmpty_eq_true, hpe, if_false]

theorem slice_nil (w L a b : Nat) : update_with_slice w L a b [] = (a, b) := rfl

theorem iter_scalar_nil (w a b : Nat) : update_with_iter_scalar w a b [] = (a, b) := rfl

theorem iter_nil (w L a b : Nat) (ha : a < 2 ^ w) (hb : b < 2 ^ w) :
    update_with_iter w L a b [] = (a, b) := by
  show (if (([] : List Nat).isEmpty)
        then update_fletcher_simd w L a b []
        else update_fletcher_scalar w (update_fletcher_simd w L a b []).1
          (update_fletcher_simd w L a b []).2 []) = (a, b)
  simp only [List.isEmpty_nil, if_true]
  exact simd_nil w L a b ha hb

theorem cast_pow_sub_mod (w d : Nat) :
    ((2 ^ w - d % 2 ^ w : Nat) : ZMod (2 ^ w)) = -(d : ZMod (2 ^ w)) := by
  rw [Nat.cast_sub (le_of_lt (Nat.mod_lt _ (Nat.two_pow_pos w))),
    ZMod.natCast_mod]
  have hself : ((2 ^ w : Nat) : ZMod (2 ^ w)) = 0 := by
    exact_mod_cast ZMod.natCast_self (2 ^ w)
  rw [hself, zero_sub]

theorem mapM_blockTryFrom (w : Nat) : ∀ l : List Nat,
    (∀ x ∈ l, x < 2 ^ w) → l.mapM (blockTryFrom w) = some l := by
  intro l
  induction l with
  | nil => intro _; rfl
  | cons x t ih =>
    intro h
    rw [List.mapM_cons, show blockTryFrom w x = some x from if_pos (h x (by simp)),
      ih fun y hy => h y (List.mem_cons_of_mem _ hy)]
    rfl

theorem checked_eq_simd (w L a b : Nat) (gs : List (List Nat))
    (hLw : L < 2 ^ w) :
    update_fletcher_simd_checked w L a b gs
      = some (update_fletcher_simd w L a b gs) := by
  simp only [update_fletcher_simd_checked, update_fletcher_simd]
  rw [show blockTryFrom w L = some L from if_pos hLw,
    mapM_blockTryFrom w (List.range L)
      fun x hx => lt_trans (List.mem_range.mp hx) hLw]

theorem fillGroups_buf_lt (L : Nat) (hL : 0 < L) : ∀ elems buf : List Nat,
    buf.length < L → (fillGroups L buf elems).2.length < L := by
  intro elems
  induction elems with
  | nil => intro buf h; exact h
  | cons e rest ih =>
    intro buf h
    rw [fillGroups_cons]
    by_cases hfull : (buf ++ [e]).length = L
    · rw [if_pos hfull]
      exact ih [] (by simpa using hL)
    · rw [if_neg hfull]
      refine ih (buf ++ [e]) ?_
      have hlen : (buf ++ [e]).length = buf.length + 1 := by simp
      omega

/-- The scalar recurrence exactly as the spec words it (§4.1): for each
element `e` in order, `a ← (a + e) mod 2^blockBits` and then
`b ← (b + a) mod 2^blockBits` using the already-updated `a`. -/
def scalarSpecRecurrence (w : Nat) : Nat → Nat → List Nat → Nat × Nat
  | a, b, [] => (a, b)
  | a, b, e :: l =>
    scalarSpecRecurrence w ((a + e) % 2 ^ w) ((b + (a + e) % 2 ^ w) % 2 ^ w) l

/-!
## Claim theorems
-/

/-- C1 (code_bug): the code evaluated at the failing input contradicts the
claim: with incoming `(a, b) = (1, 0)` and one lane-group of 32 zeroes at
block width 8, `update_fletcher_simd` returns `(1, 0)` while
`update_fletcher_scalar` on the flattened elements returns `(1, 32)` — the
SIMD path omits the `num_elements * a` contribution to `b`, so the spec's
"bit-identical" promise fails.  The exact relation is
`simd_eq_scalar_correction`. -/
theorem C1_counterexample :
    update_fletcher_simd 8 32 1 0 [List.replicate 32 0]
      ≠ update_fletcher_scalar 8 1 0 ([List.replicate 32 (0 : Nat)]).flatten := by
  decide

/-- C3 (confirmed): `update_fletcher_scalar` implements exactly the
element-by-element recurrence of the spec (`a ← (a + e) mod 2^blockBits`,
then `b ← (b + a) mod 2^blockBits` with the updated `a`), is total, and is
the identity on the empty sequence. -/
theorem C3_scalar_functional_correctness (w : Nat) (l : List Nat) :
    ∀ a b : Nat,
      update_fletcher_scalar w a b l = scalarSpecRecurrence w a b l
      ∧ update_fletcher_scalar w a b [] = (a, b) := by
  induction l with
  | nil => intro a b; exact ⟨rfl, rfl⟩
  | cons e t ih =>
    intro a b
    refine ⟨?_, rfl⟩
    rw [scalar_cons]
    exact (ih ((a + e) % 2 ^ w) ((b + (a + e) % 2 ^ w) % 2 ^ w)).1

/-- C6 (confirmed): every update entry point is the identity on the state
when given an empty input. -/
theorem C6_empty_identity (w L a b : Nat) (ha : a < 2 ^ w) (hb : b < 2 ^ w) :
    update_with_slice w L a b [] = (a, b)
    ∧ update_with_iter w L a b [] = (a, b)
    ∧ update_with_iter_scalar w a b [] = (a, b)
    ∧ update_fletcher_simd w L a b [] = (a, b) :=
  ⟨slice_nil w L a b, iter_nil w L a b ha hb, iter_scalar_nil w a b,
   simd_nil w L a b ha hb⟩

/-- Witness for C6 at width 8 with state `(3, 5)`. -/
theorem C6_empty_identity_witness :
    3 < 2 ^ 8 ∧ 5 < 2 ^ 8
    ∧ (update_with_slice 8 32 3 5 [] = (3, 5)
       ∧ update_with_iter 8 32 3 5 [] = (3, 5)
       ∧ update_with_iter_scalar 8 3 5 [] = (3, 5)
       ∧ update_fletcher_simd 8 32 3 5 [] = (3, 5)) :=
  ⟨by decide, by decide, C6_empty_identity 8 32 3 5 (by decide) (by decide)⟩

/-- C10 (confirmed): when the incoming `a`-half is zero, the SIMD lane
correction is exact for every incoming `b`: `update_fletcher_simd` agrees
bit-for-bit with `update_fletcher_scalar` on the flattened elements. -/
theorem C10_simd_scalar_eq_a_zero (w L b : Nat) (gs : List (List Nat))
    (hgs : ∀ g ∈ gs, g.length = L) (hb : b < 2 ^ w) :
    update_fletcher_simd w L 0 b gs
      = update_fletcher_scalar w 0 b gs.flatten := by
  rw [simd_eq_scalar_correction w L 0 b gs hgs, Nat.mul_zero, Nat.zero_mod,
    Nat.sub_zero, Nat.add_mod_right]
  by_cases hf : gs.flatten = []
  · rw [hf, scalar_nil]
    rw [Nat.zero_mod, Nat.mod_eq_of_lt (Nat.mod_lt b (Nat.two_pow_pos w)),
      Nat.mod_eq_of_lt hb]
  · obtain ⟨s1, s2⟩ := scalar_lt w gs.flatten 0 b hf
    rw [Nat.mod_eq_of_lt s1,
      Nat.mod_eq_of_lt (Nat.mod_lt _ (Nat.two_pow_pos w)), Nat.mod_eq_of_lt s2]

/-- Witness for C10: one nonzero lane-group at width 8 with `b = 9`. -/
theorem C10_simd_scalar_eq_a_zero_witness :
    (∀ g ∈ [List.replicate 32 (5 : Nat)], g.length = 32) ∧ 9 < 2 ^ 8
    ∧ update_fletcher_simd 8 32 0 9 [List.replicate 32 5]
        = update_fletcher_scalar 8 0 9 ([List.replicate 32 (5 : Nat)]).flatten :=
  ⟨by decide, by decide,
   C10_simd_scalar_eq_a_zero 8 32 9 [List.replicate 32 5] (by decide) (by decide)⟩

/-- Positive side of the equivalence law: the slice and iterator paths
always produce the same
final value, and both agree with the scalar-only path whenever the initial
`a`-half is zero (in particular from `new()`); but not for every initial
state, because the vector path drops the `(aligned length) * a`
contribution to `b`. -/
theorem update_paths_agree (w L a b : Nat) (S : List Nat) (hL : 0 < L)
    (ha : a < 2 ^ w) (hb : b < 2 ^ w) :
    (value w (update_with_iter w L a b S).1 (update_with_iter w L a b S).2
       = value w (update_with_slice w L a b S).1 (update_with_slice w L a b S).2)
    ∧ (a = 0 →
        value w (update_with_slice w L a b S).1 (update_with_slice w L a b S).2
          = value w (update_with_iter_scalar w a b S).1
              (update_with_iter_scalar w a b S).2) := by
  constructor
  · rw [iter_eq_slice w L a b S hL ha hb]
  · intro ha0
    subst ha0
    rw [slice_spec w L 0 b S hL (Nat.two_pow_pos w) hb, Nat.mul_zero,
      Nat.zero_mod, Nat.sub_zero, Nat.add_mod_right]
    by_cases hS : S = []
    · subst hS
      rw [iter_scalar_nil, scalar_nil, Nat.zero_mod,
        Nat.mod_eq_of_lt (Nat.mod_lt b (Nat.two_pow_pos w)),
        Nat.mod_eq_of_lt hb]
    · obtain ⟨s1, s2⟩ := scalar_lt w S 0 b hS
      rw [Nat.mod_eq_of_lt s1,
        Nat.mod_eq_of_lt (Nat.mod_lt _ (Nat.two_pow_pos w)),
        Nat.mod_eq_of_lt s2]
      rfl

/-- Concrete instance of `update_paths_agree`: 35 elements at width 8 (one
full lane-group plus a 3-element remainder) from the zero state. -/
theorem update_paths_agree_instance :
    0 < 32 ∧ 0 < 2 ^ 8 ∧ 7 < 2 ^ 8
    ∧ ((value 8 (update_with_iter 8 32 0 7 (List.range 35)).1
          (update_with_iter 8 32 0 7 (List.range 35)).2
        = value 8 (update_with_slice 8 32 0 7 (List.range 35)).1
            (update_with_slice 8 32 0 7 (List.range 35)).2)
       ∧ ((0 : Nat) = 0 →
           value 8 (update_with_slice 8 32 0 7 (List.range 35)).1
               (update_with_slice 8 32 0 7 (List.range 35)).2
             = value 8 (update_with_iter_scalar 8 0 7 (List.range 35)).1
                 (update_with_iter_scalar 8 0 7 (List.range 35)).2)) :=
  ⟨by decide, by decide, by decide,
   update_paths_agree 8 32 0 7 (List.range 35) (by decide) (by decide)
     (by decide)⟩

/-- C2 (code_bug): the code evaluated at the failing input contradicts the
equivalence law: with initial `(a, b) = (1, 0)` at width 8 and 32 zero
elements, the slice path gives value 1 while the scalar-only path gives
value 0x2001, because the vector path drops the `(aligned length) * a`
contribution to `b`. -/
theorem C2_counterexample :
    value 8 (update_with_slice 8 32 1 0 (List.replicate 32 0)).1
        (update_with_slice 8 32 1 0 (List.replicate 32 0)).2
      ≠ value 8 (update_with_iter_scalar 8 1 0 (List.replicate 32 0)).1
          (update_with_iter_scalar 8 1 0 (List.replicate 32 0)).2 := by
  decide

/-- Characterisation of additivity: the scalar path satisfies the
additivity law unconditionally; `update_with_slice` satisfies it exactly when the `b`
deficits of the two calls add up to the deficit of the single call —
`p(S1)*a + p(S2)*a1 ≡ p(S1++S2)*a (mod 2^blockBits)` where `p` is the
lane-aligned prefix length and `a1` the `a`-half after `S1`.  It fails in
general (see the counterexample). -/
theorem additivity_characterization (w L a b : Nat) (S1 S2 : List Nat) (hL : 0 < L)
    (ha : a < 2 ^ w) (hb : b < 2 ^ w)
    (hcond : ((S1.length - S1.length % L) * a
               + (S2.length - S2.length % L)
                   * (update_fletcher_scalar w a b S1).1) % 2 ^ w
             = ((S1 ++ S2).length - (S1 ++ S2).length % L) * a % 2 ^ w) :
    (update_with_iter_scalar w (update_with_iter_scalar w a b S1).1
        (update_with_iter_scalar w a b S1).2 S2
      = update_with_iter_scalar w a b (S1 ++ S2))
    ∧ (update_with_slice w L (update_with_slice w L a b S1).1
          (update_with_slice w L a b S1).2 S2
        = update_with_slice w L a b (S1 ++ S2)) := by
  have hMpos := Nat.two_pow_pos w
  refine ⟨(scalar_append w a b S1 S2).symm, ?_⟩
  have h1 := slice_spec w L a b S1 hL ha hb
  have hi1 : (update_with_slice w L a b S1).1 < 2 ^ w := by
    rw [h1]; exact Nat.mod_lt _ hMpos
  have hi2 : (update_with_slice w L a b S1).2 < 2 ^ w := by
    rw [h1]; exact Nat.mod_lt _ hMpos
  rw [slice_spec w L (update_with_slice w L a b S1).1
      (update_with_slice w L a b S1).2 S2 hL hi1 hi2,
    slice_spec w L a b (S1 ++ S2) hL ha hb, h1]
  have hcondZ := congrArg (Nat.cast : Nat → ZMod (2 ^ w)) hcond
  simp only [ZMod.natCast_mod, Nat.cast_add, Nat.cast_mul, scalar_cast_1]
    at hcondZ
  refine Prod.ext_iff.mpr
    ⟨natEq_of_castEq w _ _ (Nat.mod_lt _ hMpos) (Nat.mod_lt _ hMpos) ?_,
     natEq_of_castEq w _ _ (Nat.mod_lt _ hMpos) (Nat.mod_lt _ hMpos) ?_⟩
  · simp only [ZMod.natCast_mod, scalar_cast_1, List.map_append,
      List.sum_append]
    ring
  · simp only [ZMod.natCast_mod, Nat.cast_add, Nat.cast_mul,
      cast_pow_sub_mod, scalar_cast_1, scalar_cast_2, List.map_append,
      List.sum_append, wSumZ_append, List.length_map, List.length_append,
      Nat.cast_ofNat]
    simp only [List.length_append, Nat.cast_add] at hcondZ
    linear_combination -hcondZ

/-- Concrete instance of `additivity_characterization`: two short runs
(below one lane-group) at width 8, where all aligned prefixes are empty and
the side condition holds trivially. -/
theorem additivity_characterization_instance :
    0 < 32 ∧ 3 < 2 ^ 8 ∧ 4 < 2 ^ 8
    ∧ (([1, 2].length - [1, 2].length % 32) * 3
         + ([5].length - [5].length % 32)
             * (update_fletcher_scalar 8 3 4 [1, 2]).1) % 2 ^ 8
        = (([1, 2] ++ [5]).length - ([1, 2] ++ [5]).length % 32) * 3 % 2 ^ 8
    ∧ ((update_with_iter_scalar 8 (update_with_iter_scalar 8 3 4 [1, 2]).1
          (update_with_iter_scalar 8 3 4 [1, 2]).2 [5]
        = update_with_iter_scalar 8 3 4 ([1, 2] ++ [5]))
       ∧ (update_with_slice 8 32 (update_with_slice 8 32 3 4 [1, 2]).1
            (update_with_slice 8 32 3 4 [1, 2]).2 [5]
          = update_with_slice 8 32 3 4 ([1, 2] ++ [5]))) :=
  ⟨by decide, by decide, by decide, by decide,
   additivity_characterization 8 32 3 4 [1, 2] [5] (by decide) (by decide)
     (by decide) (by decide)⟩

/-- C4 (code_bug): the code evaluated at the failing input contradicts the
additivity law: at width 8, updating with `[1]` and then with 32 zeroes
gives state `(1, 1)`, while updating with the concatenation in one call
gives `(1, 33)` — the second call enters the SIMD path with `a = 1` and
loses the `32 * a` contribution to `b`. -/
theorem C4_counterexample :
    update_with_slice 8 32
        (update_with_slice 8 32 0 0 [1]).1 (update_with_slice 8 32 0 0 [1]).2
        (List.replicate 32 0)
      ≠ update_with_slice 8 32 0 0 ([1] ++ List.replicate 32 0) := by
  decide

/-- C5 (confirmed): from the zero-initialised state, the vectorized slice
path and the scalar-only path agree exactly on `value()` for every input
of length 1 to 64 (in fact for every length). -/
theorem C5_differential_slice_scalar (w L : Nat) (data : List Nat)
    (hL : 0 < L) (hn1 : 1 ≤ data.length) (hn64 : data.length ≤ 64) :
    value w (update_with_slice w L 0 0 data).1
        (update_with_slice w L 0 0 data).2
      = value w (update_with_iter_scalar w 0 0 data).1
          (update_with_iter_scalar w 0 0 data).2 := by
  have hMpos := Nat.two_pow_pos w
  rw [slice_spec w L 0 0 data hL hMpos hMpos, Nat.mul_zero, Nat.zero_mod,
    Nat.sub_zero, Nat.add_mod_right]
  have hne : data ≠ [] := by
    intro hc
    rw [hc] at hn1
    simp at hn1
  obtain ⟨s1, s2⟩ := scalar_lt w data 0 0 hne
  rw [Nat.mod_eq_of_lt s1, Nat.mod_eq_of_lt (Nat.mod_lt _ hMpos),
    Nat.mod_eq_of_lt s2]
  rfl

/-- Witness for C5: 33 elements at width 8 (one lane-group plus one
remainder element). -/
theorem C5_differential_slice_scalar_witness :
    0 < 32 ∧ 1 ≤ (List.range 33).length ∧ (List.range 33).length ≤ 64
    ∧ value 8 (update_with_slice 8 32 0 0 (List.range 33)).1
        (update_with_slice 8 32 0 0 (List.range 33)).2
      = value 8 (update_with_iter_scalar 8 0 0 (List.range 33)).1
          (update_with_iter_scalar 8 0 0 (List.range 33)).2 :=
  ⟨by decide, by decide, by decide,
   C5_differential_slice_scalar 8 32 (List.range 33) (by decide) (by decide)
     (by decide)⟩

/-- C7 (confirmed): `value` composes the two halves as
`(b << blockBits) | a`, which for in-range halves equals
`b * 2^blockBits + a`; the zero state of `new()` has value 0; and the
`From` conversion returns exactly `value`. -/
theorem C7_value_composition (w a b : Nat) (ha : a < 2 ^ w) (hb : b < 2 ^ w) :
    value w a b = b * 2 ^ w + a
    ∧ value w fletcherNew.1 fletcherNew.2 = 0
    ∧ fletcherFrom w a b = value w a b := by
  refine ⟨?_, ?_, rfl⟩
  · unfold value
    rw [Nat.shiftLeft_eq]
    have hb2 : b * 2 ^ w < 2 ^ (2 * w) := by
      have h1 : b * 2 ^ w < 2 ^ w * 2 ^ w :=
        Nat.mul_lt_mul_of_pos_right hb (Nat.two_pow_pos w)
      calc b * 2 ^ w < 2 ^ w * 2 ^ w := h1
        _ = 2 ^ (2 * w) := by rw [← pow_add, two_mul]
    have haw : a < 2 ^ (2 * w) :=
      lt_of_lt_of_le ha (Nat.pow_le_pow_right (by norm_num) (by omega))
    rw [Nat.mod_eq_of_lt hb2, Nat.mod_eq_of_lt haw, Nat.mul_comm b (2 ^ w)]
    exact (Nat.mul_add_lt_is_or ha b).symm
  · show value w 0 0 = 0
    unfold value
    rw [Nat.zero_shiftLeft, Nat.zero_mod]
    rfl

/-- Witness for C7 at width 8 with state `(3, 5)`. -/
theorem C7_value_composition_witness :
    3 < 2 ^ 8 ∧ 5 < 2 ^ 8
    ∧ (value 8 3 5 = 5 * 2 ^ 8 + 3
       ∧ value 8 fletcherNew.1 fletcherNew.2 = 0
       ∧ fletcherFrom 8 3 5 = value 8 3 5) :=
  ⟨by decide, by decide, C7_value_composition 8 3 5 (by decide) (by decide)⟩

/-- C8 (confirmed): the four known test vectors for "abcdefgh", fed as the
width-appropriate little-endian block decompositions into zero-initialised
checksums via the slice path. -/
theorem C8_known_vectors :
    value 8 (update_with_slice 8 (NUM_LANES 1) 0 0 (leBlocks 1 abcdefghBytes)).1
        (update_with_slice 8 (NUM_LANES 1) 0 0 (leBlocks 1 abcdefghBytes)).2
      = 0xF824
    ∧ value 16
        (update_with_slice 16 (NUM_LANES 2) 0 0 (leBlocks 2 abcdefghBytes)).1
        (update_with_slice 16 (NUM_LANES 2) 0 0 (leBlocks 2 abcdefghBytes)).2
      = 0xEBDE9590
    ∧ value 32
        (update_with_slice 32 (NUM_LANES 4) 0 0 (leBlocks 4 abcdefghBytes)).1
        (update_with_slice 32 (NUM_LANES 4) 0 0 (leBlocks 4 abcdefghBytes)).2
      = 0x312E2B27CCCAC8C6
    ∧ value 64
        (update_with_slice 64 (NUM_LANES 8) 0 0 (leBlocks 8 abcdefghBytes)).1
        (update_with_slice 64 (NUM_LANES 8) 0 0 (leBlocks 8 abcdefghBytes)).2
      = 0x68676665646362616867666564636261 := by
  decide

/-- C9 (confirmed): the `try_from` conversions inside
`update_fletcher_simd` always succeed when `LANES` fits in the block type
(as it does for all four instantiations, `LANES ≤ 32 < 2^blockBits`), so
the checked model never returns `none`; and the iterator buffer index
stays strictly below `NUM_LANES` throughout `update_with_iter`. -/
theorem C9_no_panic (w L a b : Nat) (gs : List (List Nat))
    (elems buf : List Nat) (hL : 0 < L) (hLw : L < 2 ^ w)
    (hbuf : buf.length < L) :
    update_fletcher_simd_checked w L a b gs
        = some (update_fletcher_simd w L a b gs)
    ∧ (fillGroups L buf elems).2.length < L :=
  ⟨checked_eq_simd w L a b gs hLw, fillGroups_buf_lt L hL elems buf hbuf⟩

/-- Witness for C9: width 8 with 32 lanes, one lane-group, five streamed
elements and an empty starting buffer. -/
theorem C9_no_panic_witness :
    0 < 32 ∧ 32 < 2 ^ 8 ∧ ([] : List Nat).length < 32
    ∧ (update_fletcher_simd_checked 8 32 1 2 [List.replicate 32 3]
         = some (update_fletcher_simd 8 32 1 2 [List.replicate 32 3])
       ∧ (fillGroups 32 [] (List.range 5)).2.length < 32) :=
  ⟨by decide, by decide, by decide,
   C9_no_panic 8 32 1 2 [List.replicate 32 3] (List.range 5) [] (by decide)
     (by decide) (by decide)⟩

end FletcherSimd
